import Mathlib

/-!
Verification of `src/document_neo4j_etl/src/process_pdfs.py`.

Strings are embedded as `List Char`.  Python string operations used by the
source (`str.split`, `str.strip`, `str.startswith`, `str.replace`,
`str.join`, `str.isdigit`) are given executable definitions below, each
modelling the Python semantics on the characters the pipeline manipulates
(whitespace and digits are modelled over their ASCII ranges, which covers
every input the claims mention).

The in-memory graph built by `_build_graph_from_summaries` is a
`networkx.Graph`, i.e. an *undirected* graph: an edge is keyed by the
unordered pair of its endpoints, `add_edge` on an existing pair updates the
stored attribute dictionary in place (so the label is overwritten while the
originally stored endpoint orientation is kept), and `add_edge` inserts
missing endpoints as nodes.  `PGraph` below models exactly that behaviour.
-/

/-- Python `str.strip` whitespace predicate (ASCII whitespace). -/
def pyIsSpace (c : Char) : Bool :=
  c = ' ' || c = '\t' || c = '\n' || c = '\r' || c = '\x0b' || c = '\x0c'

/-- Python `str.strip()`: remove leading and trailing whitespace. -/
def pyStrip (s : List Char) : List Char :=
  ((s.dropWhile pyIsSpace).reverse.dropWhile pyIsSpace).reverse

/-- Python `summary.split("\n")` (source line 122). -/
def splitNL : List Char → List (List Char)
  | [] => [[]]
  | c :: rest =>
    if c = '\n' then [] :: splitNL rest
    else
      match splitNL rest with
      | [] => [[c]]
      | p :: ps => (c :: p) :: ps

/-- Python `line.split("->")` (source line 144): split on the leftmost
occurrence of the two-character delimiter, repeatedly. -/
def splitArrow : List Char → List (List Char)
  | [] => [[]]
  | [c] => [[c]]
  | c1 :: c2 :: rest =>
    if c1 = '-' && c2 = '>' then [] :: splitArrow rest
    else
      match splitArrow (c2 :: rest) with
      | [] => [[c1]]
      | p :: ps => (c1 :: p) :: ps

/-- Whether the two-character delimiter occurs anywhere in the string. -/
def hasArrow : List Char → Bool
  | [] => false
  | [_] => false
  | c1 :: c2 :: rest => (c1 = '-' && c2 = '>') || hasArrow (c2 :: rest)

/-- Python `entity.replace("**", "")` (source line 140): delete every
non-overlapping occurrence of `**`, scanning left to right. -/
def removeStarStar : List Char → List Char
  | [] => []
  | [c] => [c]
  | c1 :: c2 :: rest =>
    if c1 = '*' && c2 = '*' then removeStarStar rest
    else c1 :: removeStarStar (c2 :: rest)

/-- Source line 128: the three accepted spellings of the entities header. -/
def isEntitiesHeader (line : List Char) : Bool :=
  List.isPrefixOf "### Entities:".toList line ||
  List.isPrefixOf "**Entities:**".toList line ||
  List.isPrefixOf "Entities:".toList line

/-- Source line 132: the three accepted spellings of the relationships header. -/
def isRelationshipsHeader (line : List Char) : Bool :=
  List.isPrefixOf "### Relationships:".toList line ||
  List.isPrefixOf "**Relationships:**".toList line ||
  List.isPrefixOf "Relationships:".toList line

/-- The in-memory graph: `networkx.Graph` as used by the source.  `nodes`
is the node list in insertion order; `edges` holds one entry per unordered
endpoint pair, storing the endpoints in the orientation in which the pair
was first inserted together with the current `label` attribute.
(`networkx` reports an edge at whichever endpoint occurs first in node
insertion order; on every input the claims exercise, that coincides with
the first-insertion orientation stored here.) -/
structure PGraph where
  nodes : List (List Char)
  edges : List (List Char × List Char × List Char)

def emptyPGraph : PGraph := ⟨[], []⟩

/-- Python `G.add_node(n)`: a no-op when the node exists, otherwise appended. -/
def addNode (G : PGraph) (n : List Char) : PGraph :=
  if n ∈ G.nodes then G else ⟨G.nodes ++ [n], G.edges⟩

/-- Attribute update part of `G.add_edge(s, t, label=l)` on an undirected
graph: if an edge with unordered endpoint pair `(s, t)` exists, its label is
overwritten in place (stored orientation kept); otherwise `(s, t, l)` is
appended. -/
def updEdges (es : List (List Char × List Char × List Char)) (s t l : List Char) :
    List (List Char × List Char × List Char) :=
  match es with
  | [] => [(s, t, l)]
  | (a, b, x) :: rest =>
    if (a = s && b = t) || (a = t && b = s) then (a, b, l) :: rest
    else (a, b, x) :: updEdges rest s t l

/-- Python `G.add_edge(s, t, label=l)`: missing endpoints become nodes; then the
edge keyed by the unordered pair is created or its label overwritten. -/
def addEdge (G : PGraph) (s t l : List Char) : PGraph :=
  let G1 := addNode G s
  let G2 := addNode G1 t
  ⟨G2.nodes, updEdges G2.edges s t l⟩

/-- Source lines 143-149, relationships branch: split the line on `->`;
with at least two parts, source = first part stripped, target = last part
stripped, label = middle parts joined with `" -> "` then stripped. -/
def processRelLine (G : PGraph) (line : List Char) : PGraph :=
  let parts := splitArrow line
  if 2 ≤ parts.length then
    addEdge G (pyStrip (parts.headD [])) (pyStrip (parts.getLastD []))
      (pyStrip (List.intercalate " -> ".toList (parts.drop 1).dropLast))
  else G

/-- Source lines 136-142, entities branch (the line is known non-blank).
`line[0].isdigit() and line[1] == "."` raises `IndexError` when the line is
a single digit character (`line[1]` is out of range); this aborting path is
the `.error` constructor.  Otherwise the enumeration marker is removed via
`line.split(".", 1)[1].strip()` (the first `.` sits at index 1 because
`line[0]` is a digit), the result is stripped again and `**` deleted, and
the node is added. -/
def processEntityLine (G : PGraph) (line : List Char) : Except PGraph PGraph :=
  match line with
  | [] => .ok G
  | [c] =>
    if c.isDigit then .error G
    else .ok (addNode G (removeStarStar (pyStrip [c])))
  | c1 :: c2 :: rest =>
    if c1.isDigit && c2 = '.' then .ok (addNode G (removeStarStar (pyStrip (pyStrip rest))))
    else .ok (addNode G (removeStarStar (pyStrip (c1 :: c2 :: rest))))

/-- The per-line loop of `_build_graph_from_summaries` (source lines
127-149) with its two mode flags.  An uncaught Python exception is the
`.error` constructor, carrying the graph as mutated so far. -/
def processLines : PGraph → Bool → Bool → List (List Char) → Except PGraph PGraph
  | G, _, _, [] => .ok G
  | G, entities_section, relationships_section, line :: rest =>
    if isEntitiesHeader line then processLines G true false rest
    else if isRelationshipsHeader line then processLines G false true rest
    else if entities_section && !(pyStrip line).isEmpty then
      match processEntityLine G line with
      | .ok G1 => processLines G1 entities_section relationships_section rest
      | .error G1 => .error G1
    else if relationships_section && !(pyStrip line).isEmpty then
      processLines (processRelLine G line) entities_section relationships_section rest
    else processLines G entities_section relationships_section rest

/-- One iteration of the summary loop (source lines 121-149): split the
summary into lines and run the line loop with both flags false. -/
def processSummary (G : PGraph) (summary : List Char) : Except PGraph PGraph :=
  processLines G false false (splitNL summary)

/-- The summary loop under the single `try` of source lines 120-151: the
first exception is caught by the `except` *outside* the loop, which logs and
falls through to `return G`, so every remaining summary is abandoned. -/
def buildGo : PGraph → List (List Char) → PGraph
  | G, [] => G
  | G, s :: rest =>
    match processSummary G s with
    | .ok G1 => buildGo G1 rest
    | .error G1 => G1

/-- Function `_build_graph_from_summaries` (source lines 118-152). -/
def buildGraphFromSummaries (summaries : List (List Char)) : PGraph :=
  buildGo emptyPGraph summaries

/-- The chunk list produced for one document by the loop
`for i in range(0, len(document), step): document[i:i+chunk_size]`
(source lines 77-79), for positive step; `s` is the step minus one, so the
recursion drops `s + 1` characters per chunk. -/
def chunksFrom (chunk_size s : Nat) : List Char → List (List Char)
  | [] => []
  | c :: cs => List.take chunk_size (c :: cs) :: chunksFrom chunk_size s (cs.drop s)
  termination_by l => l.length
  decreasing_by simp; omega

/-- Function `_split_documents_into_chunks` (source lines 74-80).  The step is
`chunk_size - overlap_size`; Python's `range` raises
`ValueError: range() arg 3 must not be zero` when the step is zero (hit as
soon as one document is iterated), and yields no indices at all when the
step is negative, so an oversized overlap silently produces no chunks. -/
def splitDocumentsIntoChunks (documents : List (List Char))
    (chunk_size overlap_size : Nat) : Except String (List (List Char)) :=
  if overlap_size = chunk_size then
    if documents.isEmpty then .ok [] else .error "range() arg 3 must not be zero"
  else if chunk_size < overlap_size then
    .ok []
  else
    .ok (documents.flatMap fun d => chunksFrom chunk_size (chunk_size - overlap_size - 1) d)

/-- A one-line relationships-only summary: the plain relationships header,
a newline, then the given line. -/
def mkRelOnlySummary (line : List Char) : List Char :=
  "Relationships:".toList ++ '\n' :: line

/-- The graph invariant of the spec: every edge endpoint is a node. -/
def graphInv (G : PGraph) : Prop :=
  ∀ a b l, (a, b, l) ∈ G.edges → a ∈ G.nodes ∧ b ∈ G.nodes

/-- The graph finally visible after a summary loop step, whether the step
completed or raised (on a raise the mutated graph so far is what the outer
`except` returns). -/
def exceptGraph : Except PGraph PGraph → PGraph
  | .ok G => G
  | .error G => G

/-- Python exceptions distinguished by the top-level run model. -/
inductive PyErr
  | serviceError
  | nameError

/-- Function `process_txts_and_update_neo4j` (source lines 33-47), reduced to its
control flow around the database driver.  The acquisition call
`GraphDatabase.driver(...)` is external; its outcome is the parameter
`acquire`.  `bodyError` is an optional exception raised by the later
statements of the `try` suite (which run only after a successful
acquisition).  Python semantics of the statement sequence: the local name
`driver` is bound only if the acquisition call returns; `except Exception`
catches any exception from the `try` suite and logs it; the `finally`
block then evaluates `driver.close()`, which raises `NameError` when
`driver` was never bound, and that exception escapes the function.  The
result records (whether `close` was performed on the driver, the
exception escaping the function, if any). -/
def processTxtsAndUpdateNeo4j (acquire : Except PyErr Unit) (bodyError : Option PyErr) :
    Bool × Option PyErr :=
  match acquire with
  | .ok _ =>
    -- `driver` is bound; a `bodyError` is caught and logged by `except`;
    -- `finally` closes the bound driver and nothing escapes.
    let _ := bodyError
    (true, none)
  | .error _ =>
    -- Acquisition raised before `driver` was bound; `except` catches and
    -- logs it; `finally` evaluates the unbound name `driver`, raising a
    -- `NameError` that escapes.  The driver is never closed.
    (false, some PyErr.nameError)

/-- C1: the claim says a parse error inside the Graph Builder skips only
the raising summary and the builder continues with the rest.  In the code
the `try` wraps the whole summary loop, so the `IndexError` raised by the
entities-section line `"5"` of the first summary aborts the loop: the
second summary's entity `"Alice"` never reaches the graph, which is
returned empty. -/
theorem c1_parse_error_aborts_remaining_summaries :
    buildGraphFromSummaries ["Entities:\n5".toList, "Entities:\nAlice".toList]
      = emptyPGraph ∧
    "Alice".toList ∉
      (buildGraphFromSummaries ["Entities:\n5".toList, "Entities:\nAlice".toList]).nodes := by
  exact ⟨rfl, by decide⟩

/-- C2, counterexample: the claim predicts that a relationship line from
`Alice` to `Bob` followed (in a later summary) by one from `Bob` to
`Alice` yields two distinct directed edges, each with its own label.  The
graph is an undirected `networkx.Graph`, so the second line overwrites the
label of the single edge between the unordered pair: exactly one edge
remains and it carries the later label `likes`. -/
theorem c2_reverse_edge_counterexample :
    (buildGraphFromSummaries
        ["Relationships:\nAlice->knows->Bob".toList,
         "Relationships:\nBob->likes->Alice".toList]).edges
      = [("Alice".toList, "Bob".toList, "likes".toList)] ∧
    (buildGraphFromSummaries
        ["Relationships:\nAlice->knows->Bob".toList,
         "Relationships:\nBob->likes->Alice".toList]).edges.length ≠ 2 := by
  exact ⟨rfl, by decide⟩

/-- C3: on the spec's example summary the builder yields exactly the nodes
`Alice` and `Bob` and the single edge from `Alice` to `Bob` labelled
`knows`. -/
theorem c3_example_summary_graph :
    (buildGraphFromSummaries
        ["Entities:\n1. Alice\n2. Bob\nRelationships:\nAlice->knows->Bob".toList]).nodes
      = ["Alice".toList, "Bob".toList] ∧
    (buildGraphFromSummaries
        ["Entities:\n1. Alice\n2. Bob\nRelationships:\nAlice->knows->Bob".toList]).edges
      = [("Alice".toList, "Bob".toList, "knows".toList)] := by
  exact ⟨rfl, rfl⟩

/-- C5, counterexample: with chunk length 1 and overlap 2 (overlap greater
than length) the chunker does not fail at all: the negative Python range
step yields no indices, so the call succeeds with an empty chunk list. -/
theorem c5_oversized_overlap_counterexample :
    splitDocumentsIntoChunks ["ab".toList] 1 2 = Except.ok [] := rfl

/-- C8, counterexample: for the relationships line `a->b->c->d` the claim
predicts the label `b->c` (middle parts rejoined with the bare delimiter);
the code joins the middle parts with `" -> "`, producing `b -> c`. -/
theorem c8_label_join_counterexample :
    (buildGraphFromSummaries ["Relationships:\na->b->c->d".toList]).edges
      = [("a".toList, "d".toList, "b -> c".toList)] ∧
    "b -> c".toList ≠ "b->c".toList := by
  exact ⟨rfl, by decide⟩

/-- C9: the claim says the driver is closed on every exit path, including
a failed acquisition, with no new error escaping the release.  When the
acquisition itself raises, the local name `driver` is never bound, so the
`finally` block's `driver.close()` raises a `NameError` that escapes and
no close is performed (first conjunct).  When acquisition succeeds, the
driver is closed even if a later stage raised (second conjunct). -/
theorem c9_close_not_performed_on_failed_acquire :
    processTxtsAndUpdateNeo4j (Except.error PyErr.serviceError) none
      = (false, some PyErr.nameError) ∧
    processTxtsAndUpdateNeo4j (Except.ok ()) (some PyErr.serviceError)
      = (true, none) := by
  exact ⟨rfl, rfl⟩

/-- C10: a relationships line beginning with the delimiter yields an empty
first part, so the empty string is added as a node with an incident edge;
the line is neither ignored nor does it raise. -/
theorem c10_empty_endpoint_node :
    "".toList ∈ (buildGraphFromSummaries ["Relationships:\n->knows->Bob".toList]).nodes ∧
    (buildGraphFromSummaries ["Relationships:\n->knows->Bob".toList]).edges
      = [("".toList, "Bob".toList, "knows".toList)] := by
  exact ⟨by decide, rfl⟩

/-- Unfolding lemma for `chunksFrom` on a non-empty document. -/
theorem chunksFrom_cons (L s : Nat) (c : Char) (cs : List Char) :
    chunksFrom L s (c :: cs) = List.take L (c :: cs) :: chunksFrom L s (cs.drop s) := by
  rw [chunksFrom]

/-- Every chunk has at most `chunk_size` characters. -/
theorem length_le_of_mem_chunksFrom (L s : Nat) (doc : List Char) :
    ∀ c ∈ chunksFrom L s doc, c.length ≤ L := by
  induction doc using chunksFrom.induct L s with
  | case1 => simp [chunksFrom]
  | case2 c cs ih =>
    rw [chunksFrom_cons]
    intro x hx
    rw [List.mem_cons] at hx
    rcases hx with h | h
    · subst h; simp
    · exact ih x h

/-- Concatenating the first `step` characters of every chunk rebuilds the
document (the final chunk is shorter than the step, so all of it is kept). -/
theorem chunksFrom_reconstruct (L s : Nat) (h : s + 1 ≤ L) (doc : List Char) :
    ((chunksFrom L s doc).map (List.take (s + 1))).flatten = doc := by
  induction doc using chunksFrom.induct L s with
  | case1 => simp [chunksFrom]
  | case2 c cs ih =>
    rw [chunksFrom_cons]
    simp only [List.map_cons, List.flatten_cons, ih]
    rw [List.take_take]
    have hmin : min (s + 1) L = s + 1 := by omega
    rw [hmin, List.take_succ_cons]
    simp [List.take_append_drop]

/-- The head of a non-empty document's chunk list is its `chunk_size`-long
first window. -/
theorem chunksFrom_head (L s : Nat) (d : List Char) (hd : d ≠ []) :
    (chunksFrom L s d).head? = some (d.take L) := by
  cases d with
  | nil => exact absurd rfl hd
  | cons c cs => rw [chunksFrom_cons]; rfl

/-- The overlap identity between a document's first chunk and the first
chunk of the stepped remainder. -/
theorem chunk_overlap_pair (L s o : Nat) (hL : s + 1 ≤ L) (ho : o = L - (s + 1))
    (doc : List Char) (hne : doc.drop (s + 1) ≠ []) :
    List.drop ((doc.take L).length - min o ((doc.drop (s + 1)).take L).length) (doc.take L)
      = List.take (min o ((doc.drop (s + 1)).take L).length) ((doc.drop (s + 1)).take L) := by
  have hstep : s + 1 < doc.length := by
    by_contra hcon
    exact hne (List.drop_eq_nil_iff.mpr (by omega))
  have h1 : (doc.take L).length - min o ((doc.drop (s + 1)).take L).length = s + 1 := by
    simp [List.length_take, List.length_drop]
    omega
  rw [h1, List.drop_take, List.take_take]
  rw [List.take_eq_take]
  simp [List.length_take, List.length_drop]
  omega

/-- Consecutive chunks overlap: the trailing characters of each chunk are
the leading characters of the next, with overlap `min o` (length of the
later chunk), where `o` is the configured overlap. -/
theorem chunksFrom_chain (L s o : Nat) (hL : s + 1 ≤ L) (ho : o = L - (s + 1))
    (doc : List Char) :
    List.Chain'
      (fun c1 c2 => List.drop (c1.length - min o c2.length) c1
        = List.take (min o c2.length) c2)
      (chunksFrom L s doc) := by
  induction doc using chunksFrom.induct L s with
  | case1 => simp [chunksFrom]
  | case2 c cs ih =>
    rw [chunksFrom_cons]
    rw [List.chain'_cons']
    refine ⟨?_, ih⟩
    intro y hy
    rcases h : cs.drop s with _ | ⟨d, ds⟩
    · rw [h] at hy; simp [chunksFrom] at hy
    · rw [chunksFrom_head L s (cs.drop s) (by rw [h]; simp)] at hy
      simp only [Option.mem_def, Option.some.injEq] at hy
      subst hy
      have hne : (c :: cs).drop (s + 1) ≠ [] := by
        simpa using (by rw [h]; simp : cs.drop s ≠ [])
      have := chunk_overlap_pair L s o hL ho (c :: cs) hne
      simpa using this

/-- The final chunk is no longer than the step. -/
theorem chunksFrom_getLast (L s : Nat) (doc : List Char) :
    ∀ c, (chunksFrom L s doc).getLast? = some c → c.length ≤ s + 1 := by
  induction doc using chunksFrom.induct L s with
  | case1 => simp [chunksFrom]
  | case2 c cs ih =>
    rw [chunksFrom_cons]
    intro x hx
    rcases h : chunksFrom L s (cs.drop s) with _ | ⟨d, ds⟩
    · rw [h, List.getLast?_singleton] at hx
      have hcs : cs.drop s = [] := by
        by_contra hcon
        rcases List.exists_cons_of_ne_nil hcon with ⟨a, as, ha⟩
        rw [ha, chunksFrom_cons] at h
        exact absurd h (by simp)
      have hlen : cs.length ≤ s := List.drop_eq_nil_iff.mp hcs
      have := hx
      simp only [Option.some.injEq] at this
      subst this
      simp
      omega
    · rw [h] at hx
      rw [List.getLast?_cons_cons] at hx
      rw [← h] at hx
      exact ih x hx

/-- C4: with `0 < O < L` the chunker succeeds; every chunk is at most `L`
long; consecutive chunks share exactly `min O (length of the later chunk)`
characters (trailing of the earlier = leading of the later); the final
chunk is at most `L - O` long; and concatenating the first `L - O`
characters of every chunk rebuilds the document. -/
theorem c4_chunker_correct (doc : List Char) (L O : Nat) (hO : 0 < O) (hOL : O < L) :
    ∃ chunks, splitDocumentsIntoChunks [doc] L O = Except.ok chunks
      ∧ (∀ c ∈ chunks, c.length ≤ L)
      ∧ List.Chain' (fun c1 c2 => List.drop (c1.length - min O c2.length) c1
          = List.take (min O c2.length) c2) chunks
      ∧ ((chunks.map (List.take (L - O))).flatten = doc)
      ∧ (∀ c, chunks.getLast? = some c → c.length ≤ L - O) := by
  refine ⟨chunksFrom L (L - O - 1) doc, ?_, ?_, ?_, ?_, ?_⟩
  · unfold splitDocumentsIntoChunks
    rw [if_neg (by omega), if_neg (by omega)]
    simp
  · exact length_le_of_mem_chunksFrom L (L - O - 1) doc
  · exact chunksFrom_chain L (L - O - 1) O (by omega) (by omega) doc
  · have h1 : L - O - 1 + 1 = L - O := by omega
    have h2 := chunksFrom_reconstruct L (L - O - 1) (by omega) doc
    rw [h1] at h2
    exact h2
  · intro c hc
    have := chunksFrom_getLast L (L - O - 1) doc c hc
    omega

theorem c4_chunker_correct_witness :
    ∃ chunks, splitDocumentsIntoChunks ["abcde".toList] 4 2 = Except.ok chunks
      ∧ (∀ c ∈ chunks, c.length ≤ 4)
      ∧ List.Chain' (fun c1 c2 => List.drop (c1.length - min 2 c2.length) c1
          = List.take (min 2 c2.length) c2) chunks
      ∧ ((chunks.map (List.take (4 - 2))).flatten = "abcde".toList)
      ∧ (∀ c, chunks.getLast? = some c → c.length ≤ 4 - 2) :=
  c4_chunker_correct "abcde".toList 4 2 (by decide) (by decide)

theorem addNode_edges (G : PGraph) (n : List Char) : (addNode G n).edges = G.edges := by
  unfold addNode
  split <;> rfl

theorem mem_nodes_addNode (G : PGraph) (n m : List Char) (h : m ∈ G.nodes) :
    m ∈ (addNode G n).nodes := by
  unfold addNode
  split
  · exact h
  · simp [h]

theorem self_mem_nodes_addNode (G : PGraph) (n : List Char) : n ∈ (addNode G n).nodes := by
  unfold addNode
  split
  · assumption
  · simp

theorem mem_updEdges (es : List (List Char × List Char × List Char)) (s t l : List Char) :
    ∀ a b x, (a, b, x) ∈ updEdges es s t l →
      (∃ y, (a, b, y) ∈ es) ∨ (a = s ∧ b = t) := by
  induction es with
  | nil =>
    intro a b x h
    simp [updEdges] at h
    exact Or.inr ⟨h.1, h.2.1⟩
  | cons e rest ih =>
    obtain ⟨ea, eb, ex⟩ := e
    intro a b x h
    rw [updEdges] at h
    split at h
    · rw [List.mem_cons] at h
      rcases h with h | h
      · exact Or.inl ⟨ex, by simp [Prod.ext_iff] at h; simp [h.1, h.2.1]⟩
      · exact Or.inl ⟨x, List.mem_cons_of_mem _ h⟩
    · rw [List.mem_cons] at h
      rcases h with h | h
      · exact Or.inl ⟨x, by rw [h]; exact List.mem_cons_self _ _⟩
      · rcases ih a b x h with h2 | h2
        · exact Or.inl ⟨h2.choose, List.mem_cons_of_mem _ h2.choose_spec⟩
        · exact Or.inr h2

theorem graphInv_addNode (G : PGraph) (n : List Char) (h : graphInv G) :
    graphInv (addNode G n) := by
  intro a b l hmem
  rw [addNode_edges] at hmem
  exact ⟨mem_nodes_addNode G n a (h a b l hmem).1, mem_nodes_addNode G n b (h a b l hmem).2⟩

theorem graphInv_addEdge (G : PGraph) (s t l : List Char) (h : graphInv G) :
    graphInv (addEdge G s t l) := by
  intro a b x hmem
  unfold addEdge at hmem ⊢
  simp only at hmem ⊢
  rw [addNode_edges, addNode_edges] at hmem
  rcases mem_updEdges G.edges s t l a b x hmem with h2 | h2
  · obtain ⟨y, hy⟩ := h2
    have := h a b y hy
    exact ⟨mem_nodes_addNode _ t a (mem_nodes_addNode _ s a this.1),
           mem_nodes_addNode _ t b (mem_nodes_addNode _ s b this.2)⟩
  · obtain ⟨ha, hb⟩ := h2
    subst ha; subst hb
    exact ⟨mem_nodes_addNode _ _ _ (self_mem_nodes_addNode G _),
           self_mem_nodes_addNode _ _⟩

theorem graphInv_processRelLine (G : PGraph) (line : List Char) (h : graphInv G) :
    graphInv (processRelLine G line) := by
  simp only [processRelLine]
  split
  · exact graphInv_addEdge _ _ _ _ h
  · exact h

theorem graphInv_processEntityLine (G : PGraph) (line : List Char) (h : graphInv G) :
    graphInv (exceptGraph (processEntityLine G line)) := by
  unfold processEntityLine
  rcases line with _ | ⟨c, _ | ⟨c2, rest⟩⟩
  · exact h
  · dsimp only
    split
    · exact h
    · exact graphInv_addNode _ _ h
  · dsimp only
    split
    · exact graphInv_addNode _ _ h
    · exact graphInv_addNode _ _ h

theorem graphInv_processLines (ls : List (List Char)) :
    ∀ (G : PGraph) (es rs : Bool), graphInv G →
      graphInv (exceptGraph (processLines G es rs ls)) := by
  induction ls with
  | nil => intro G es rs h; exact h
  | cons line rest ih =>
    intro G es rs h
    rw [processLines]
    split
    · exact ih G true false h
    · split
      · exact ih G false true h
      · split
        · have hent := graphInv_processEntityLine G line h
          rcases hpe : processEntityLine G line with G1 | G1 <;>
            rw [hpe] at hent <;> dsimp only [exceptGraph] at hent ⊢
          · exact hent
          · exact ih G1 es rs hent
        · split
          · exact ih _ es rs (graphInv_processRelLine G line h)
          · exact ih G es rs h

theorem graphInv_buildGo (ss : List (List Char)) :
    ∀ G : PGraph, graphInv G → graphInv (buildGo G ss) := by
  induction ss with
  | nil => intro G h; exact h
  | cons s rest ih =>
    intro G h
    rw [buildGo]
    have hs : graphInv (exceptGraph (processSummary G s)) :=
      graphInv_processLines (splitNL s) G false false h
    rcases hps : processSummary G s with G1 | G1 <;>
      rw [hps] at hs <;> dsimp only [exceptGraph] at hs ⊢
    · exact hs
    · exact ih G1 hs

/-- C6: every edge endpoint of the built graph is a node of the built
graph — in particular a name occurring only inside a relationship line
still becomes a node. -/
theorem c6_edge_endpoints_are_nodes (summaries : List (List Char))
    (a b l : List Char)
    (h : (a, b, l) ∈ (buildGraphFromSummaries summaries).edges) :
    a ∈ (buildGraphFromSummaries summaries).nodes ∧
    b ∈ (buildGraphFromSummaries summaries).nodes := by
  have hinv : graphInv (buildGraphFromSummaries summaries) :=
    graphInv_buildGo summaries emptyPGraph (by intro a b l h; simp [emptyPGraph] at h)
  exact hinv a b l h

theorem c6_edge_endpoints_are_nodes_witness :
    ("Alice".toList, "Bob".toList, "knows".toList) ∈
      (buildGraphFromSummaries ["Relationships:\nAlice->knows->Bob".toList]).edges ∧
    "Alice".toList ∈
      (buildGraphFromSummaries ["Relationships:\nAlice->knows->Bob".toList]).nodes ∧
    "Bob".toList ∈
      (buildGraphFromSummaries ["Relationships:\nAlice->knows->Bob".toList]).nodes := by
  refine ⟨by decide, ?_⟩
  have := c6_edge_endpoints_are_nodes ["Relationships:\nAlice->knows->Bob".toList]
    "Alice".toList "Bob".toList "knows".toList (by decide)
  exact ⟨this.1, this.2⟩

theorem splitNL_cons (c : Char) (l : List Char) :
    splitNL (c :: l) =
      if c = '\n' then [] :: splitNL l
      else match splitNL l with
        | [] => [[c]]
        | p :: ps => (c :: p) :: ps := rfl

theorem splitArrow_cons_cons (c1 c2 : Char) (rest : List Char) :
    splitArrow (c1 :: c2 :: rest) =
      if c1 = '-' && c2 = '>' then [] :: splitArrow rest
      else match splitArrow (c2 :: rest) with
        | [] => [[c1]]
        | p :: ps => (c1 :: p) :: ps := rfl

/-- Splitting on newline walks past a newline-free block. -/
theorem splitNL_append (X s : List Char) (hX : '\n' ∉ X) :
    splitNL (X ++ '\n' :: s) = X :: splitNL s := by
  induction X with
  | nil => simp [splitNL_cons]
  | cons c X ih =>
    have hc : c ≠ '\n' := fun h => hX (by simp [h])
    have hX2 : '\n' ∉ X := fun h => hX (by simp [h])
    rw [List.cons_append, splitNL_cons, if_neg hc, ih hX2]

/-- A newline-free string is a single line. -/
theorem splitNL_no_nl (X : List Char) (hX : '\n' ∉ X) : splitNL X = [X] := by
  induction X with
  | nil => rfl
  | cons c X ih =>
    have hc : c ≠ '\n' := fun h => hX (by simp [h])
    have hX2 : '\n' ∉ X := fun h => hX (by simp [h])
    rw [splitNL_cons, if_neg hc, ih hX2]

/-- Splitting on the delimiter walks past a delimiter-free block. -/
theorem splitArrow_append (s : List Char) :
    ∀ X, hasArrow X = false → splitArrow (X ++ '-' :: '>' :: s) = X :: splitArrow s := by
  intro X
  induction X using hasArrow.induct with
  | case1 =>
    intro _
    rw [List.nil_append, splitArrow_cons_cons, if_pos (by simp)]
  | case2 c =>
    intro _
    rw [List.cons_append, List.nil_append, splitArrow_cons_cons, if_neg (by simp),
      splitArrow_cons_cons, if_pos (by simp)]
  | case3 c1 c2 rest ih =>
    intro h
    rw [hasArrow] at h
    have h1 : (c1 = '-' && c2 = '>') = false := (Bool.or_eq_false_iff.mp h).1
    have h2 : hasArrow (c2 :: rest) = false := (Bool.or_eq_false_iff.mp h).2
    have h3 := ih h2
    rw [List.cons_append] at h3
    rw [List.cons_append, List.cons_append, splitArrow_cons_cons, if_neg (by simp_all), h3]

/-- A delimiter-free string is a single part. -/
theorem splitArrow_no_arrow : ∀ X, hasArrow X = false → splitArrow X = [X] := by
  intro X
  induction X using hasArrow.induct with
  | case1 => intro _; rfl
  | case2 c => intro _; rfl
  | case3 c1 c2 rest ih =>
    intro h
    rw [hasArrow] at h
    have h1 : (c1 = '-' && c2 = '>') = false := (Bool.or_eq_false_iff.mp h).1
    have h2 : hasArrow (c2 :: rest) = false := (Bool.or_eq_false_iff.mp h).2
    rw [splitArrow_cons_cons, if_neg (by simp_all), ih h2]

theorem intercalate_singleton_chars (sep x : List Char) :
    List.intercalate sep [x] = x := by
  simp [List.intercalate]

theorem intercalate_cons_cons_chars (sep x y : List Char) (zs : List (List Char)) :
    List.intercalate sep (x :: y :: zs) = x ++ sep ++ List.intercalate sep (y :: zs) := by
  simp [List.intercalate]

/-- Splitting on the delimiter inverts joining delimiter-free parts. -/
theorem splitArrow_intercalate :
    ∀ ps : List (List Char), ps ≠ [] → (∀ p ∈ ps, hasArrow p = false) →
      splitArrow (List.intercalate ['-', '>'] ps) = ps := by
  intro ps
  induction ps with
  | nil => intro h _; exact absurd rfl h
  | cons p rest ih =>
    intro _ hp
    rcases rest with _ | ⟨q, rest2⟩
    · rw [intercalate_singleton_chars]
      exact splitArrow_no_arrow p (hp p (by simp))
    · rw [intercalate_cons_cons_chars, List.append_assoc, List.cons_append, List.singleton_append]
      rw [splitArrow_append _ p (hp p (by simp))]
      rw [ih (by simp) (fun x hx => hp x (List.mem_cons_of_mem _ hx))]

/-- A character outside the separator and all parts is not in the join. -/
theorem not_mem_intercalate (c : Char) (sep : List Char) (hsep : c ∉ sep) :
    ∀ ps : List (List Char), (∀ p ∈ ps, c ∉ p) → c ∉ List.intercalate sep ps := by
  intro ps
  induction ps with
  | nil => intro _; simp [List.intercalate]
  | cons p rest ih =>
    intro hp
    rcases rest with _ | ⟨q, rest2⟩
    · rw [intercalate_singleton_chars]
      exact hp p (by simp)
    · rw [intercalate_cons_cons_chars]
      intro hmem
      rw [List.mem_append, List.mem_append] at hmem
      rcases hmem with (h | h) | h
      · exact hp p (by simp) h
      · exact hsep h
      · exact ih (fun x hx => hp x (List.mem_cons_of_mem _ hx)) h

/-- A string containing a non-whitespace character does not strip to empty. -/
theorem pyStrip_ne_nil (s : List Char) (c : Char) (hc : c ∈ s)
    (hsp : pyIsSpace c = false) : (pyStrip s).isEmpty = false := by
  rw [Bool.eq_false_iff]
  intro hemp
  have hnil : pyStrip s = [] := List.isEmpty_iff.mp hemp
  unfold pyStrip at hnil
  rw [List.reverse_eq_nil_iff] at hnil
  rw [List.dropWhile_eq_nil_iff] at hnil
  have hall : ∀ x ∈ s.dropWhile pyIsSpace, pyIsSpace x = true := by
    intro x hx
    exact hnil x (by simpa using hx)
  have hall2 : ∀ x ∈ s, pyIsSpace x = true := by
    intro x hx
    rw [← List.takeWhile_append_dropWhile pyIsSpace s, List.mem_append] at hx
    rcases hx with h | h
    · exact List.mem_takeWhile_imp h
    · exact hall x h
  rw [hall2 c hc] at hsp
  exact absurd hsp (by simp)

/-- Python `startswith` with a dash-free pattern ignores everything from
the first dash on. -/
theorem isPrefixOf_append_dash (h X s : List Char) (hh : '-' ∉ h) :
    List.isPrefixOf h (X ++ '-' :: s) = List.isPrefixOf h X := by
  induction h generalizing X with
  | nil => simp [List.isPrefixOf]
  | cons c h2 ih =>
    have hc : c ≠ '-' := fun he => hh (by simp [he])
    have hh2 : '-' ∉ h2 := fun hm => hh (by simp [hm])
    rcases X with _ | ⟨x, X2⟩
    · simp [List.isPrefixOf, hc]
    · simp only [List.cons_append, List.isPrefixOf, List.append_eq, ih X2 hh2]

theorem isEntitiesHeader_append_dash (X s : List Char) :
    isEntitiesHeader (X ++ '-' :: s) = isEntitiesHeader X := by
  unfold isEntitiesHeader
  rw [isPrefixOf_append_dash _ _ _ (by decide), isPrefixOf_append_dash _ _ _ (by decide),
    isPrefixOf_append_dash _ _ _ (by decide)]

theorem isRelationshipsHeader_append_dash (X s : List Char) :
    isRelationshipsHeader (X ++ '-' :: s) = isRelationshipsHeader X := by
  unfold isRelationshipsHeader
  rw [isPrefixOf_append_dash _ _ _ (by decide), isPrefixOf_append_dash _ _ _ (by decide),
    isPrefixOf_append_dash _ _ _ (by decide)]

theorem addEdge_edges (G : PGraph) (s t l : List Char) :
    (addEdge G s t l).edges = updEdges G.edges s t l := by
  simp only [addEdge]
  rw [addNode_edges, addNode_edges]

/-- Evaluating one relationships-only summary: after the header line the
single data line either is blank (no effect) or is handed to the
relationships branch. -/
theorem processSummary_relOnly (G : PGraph) (line : List Char)
    (hE : isEntitiesHeader line = false) (hR : isRelationshipsHeader line = false)
    (hnl : '\n' ∉ line) :
    processSummary G (mkRelOnlySummary line)
      = .ok (if (pyStrip line).isEmpty then G else processRelLine G line) := by
  unfold processSummary mkRelOnlySummary
  rw [splitNL_append _ _ (by decide), splitNL_no_nl _ hnl]
  rw [processLines, if_neg (by decide), if_pos (by decide)]
  rw [processLines, if_neg (by simp [hE]), if_neg (by simp [hR]), if_neg (by simp)]
  by_cases hb : (pyStrip line).isEmpty = true
  · rw [if_neg (by simp [hb]), processLines, if_pos hb]
  · rw [if_pos (by simp [Bool.not_eq_true] at hb; simp [hb]), processLines, if_neg hb]

/-- The relationships branch on a joined line recovers exactly the parts. -/
theorem processRelLine_parts (G : PGraph) (ps : List (List Char)) (hne : ps ≠ [])
    (hp : ∀ p ∈ ps, hasArrow p = false) :
    processRelLine G (List.intercalate ['-', '>'] ps)
      = if 2 ≤ ps.length then
          addEdge G (pyStrip (ps.headD [])) (pyStrip (ps.getLastD []))
            (pyStrip (List.intercalate " -> ".toList (ps.drop 1).dropLast))
        else G := by
  simp only [processRelLine]
  rw [splitArrow_intercalate ps hne hp]

/-- Evaluating one summary consisting of the relationships header and a
single source-label-target line. -/
theorem processSummary_relTriple (G : PGraph) (X l Y : List Char)
    (hX : hasArrow X = false) (hl : hasArrow l = false) (hY : hasArrow Y = false)
    (nX : '\n' ∉ X) (nl2 : '\n' ∉ l) (nY : '\n' ∉ Y)
    (hE : isEntitiesHeader X = false) (hR : isRelationshipsHeader X = false) :
    processSummary G (mkRelOnlySummary (X ++ '-' :: '>' :: (l ++ '-' :: '>' :: Y)))
      = .ok (addEdge G (pyStrip X) (pyStrip Y) (pyStrip l)) := by
  have hline : X ++ '-' :: '>' :: (l ++ '-' :: '>' :: Y)
      = List.intercalate ['-', '>'] [X, l, Y] := by
    rw [intercalate_cons_cons_chars, intercalate_cons_cons_chars, intercalate_singleton_chars]
    simp
  have hEline : isEntitiesHeader (X ++ '-' :: '>' :: (l ++ '-' :: '>' :: Y)) = false := by
    rw [isEntitiesHeader_append_dash]; exact hE
  have hRline : isRelationshipsHeader (X ++ '-' :: '>' :: (l ++ '-' :: '>' :: Y)) = false := by
    rw [isRelationshipsHeader_append_dash]; exact hR
  have hnline : '\n' ∉ X ++ '-' :: '>' :: (l ++ '-' :: '>' :: Y) := by
    simp [List.mem_append, nX, nl2, nY]
  rw [processSummary_relOnly G _ hEline hRline hnline]
  have hblank : (pyStrip (X ++ '-' :: '>' :: (l ++ '-' :: '>' :: Y))).isEmpty = false :=
    pyStrip_ne_nil _ '-' (by simp) (by decide)
  rw [if_neg (by simp [hblank])]
  rw [hline, processRelLine_parts G [X, l, Y] (by simp)
    (by intro p hp2; simp at hp2; rcases hp2 with h | h | h <;> simp [h, hX, hl, hY])]
  rw [if_pos (by simp)]
  simp [intercalate_singleton_chars]

/-- C7: two summaries each defining an edge between the same
(source, target) pair with different labels merge to exactly one edge
carrying the later summary's label.  The hypotheses say the names and
labels are plain tokens: free of the delimiter and newlines, already
stripped, and the line head is not mistaken for a section header. -/
theorem c7_last_write_wins (A B l1 l2 : List Char)
    (hA : hasArrow A = false) (hB : hasArrow B = false)
    (hl1 : hasArrow l1 = false) (hl2 : hasArrow l2 = false)
    (nA : '\n' ∉ A) (nB : '\n' ∉ B) (nl1 : '\n' ∉ l1) (nl2 : '\n' ∉ l2)
    (hsA : pyStrip A = A) (hsB : pyStrip B = B)
    (hsl1 : pyStrip l1 = l1) (hsl2 : pyStrip l2 = l2)
    (hE : isEntitiesHeader A = false) (hR : isRelationshipsHeader A = false)
    (hll : l1 ≠ l2) :
    (buildGraphFromSummaries
        [mkRelOnlySummary (A ++ '-' :: '>' :: (l1 ++ '-' :: '>' :: B)),
         mkRelOnlySummary (A ++ '-' :: '>' :: (l2 ++ '-' :: '>' :: B))]).edges
      = [(A, B, l2)] := by
  unfold buildGraphFromSummaries
  rw [buildGo, processSummary_relTriple _ A l1 B hA hl1 hB nA nl1 nB hE hR]
  dsimp only
  rw [buildGo, processSummary_relTriple _ A l2 B hA hl2 hB nA nl2 nB hE hR]
  dsimp only
  rw [buildGo]
  rw [hsA, hsB, hsl1, hsl2]
  rw [addEdge_edges, addEdge_edges]
  show updEdges (updEdges [] A B l1) A B l2 = [(A, B, l2)]
  rw [updEdges, updEdges, if_pos (by simp)]

theorem c7_last_write_wins_witness :
    (buildGraphFromSummaries
        [mkRelOnlySummary ("Alice".toList ++ '-' :: '>' :: ("knows".toList ++ '-' :: '>' :: "Bob".toList)),
         mkRelOnlySummary ("Alice".toList ++ '-' :: '>' :: ("likes".toList ++ '-' :: '>' :: "Bob".toList))]).edges
      = [("Alice".toList, "Bob".toList, "likes".toList)] :=
  c7_last_write_wins "Alice".toList "Bob".toList "knows".toList "likes".toList
    (by decide) (by decide) (by decide) (by decide)
    (by decide) (by decide) (by decide) (by decide)
    (by decide) (by decide) (by decide) (by decide)
    (by decide) (by decide) (by decide)

/-- C2, amended: the in-memory graph is undirected, so a relationship line
from `A` to `B` and a later one from `B` to `A` merge into a single edge
keyed by the unordered pair, stored with the first line's orientation and
the later line's label. -/
theorem c2_amended_undirected_last_label (A B l1 l2 : List Char)
    (hA : hasArrow A = false) (hB : hasArrow B = false)
    (hl1 : hasArrow l1 = false) (hl2 : hasArrow l2 = false)
    (nA : '\n' ∉ A) (nB : '\n' ∉ B) (nl1 : '\n' ∉ l1) (nl2 : '\n' ∉ l2)
    (hsA : pyStrip A = A) (hsB : pyStrip B = B)
    (hsl1 : pyStrip l1 = l1) (hsl2 : pyStrip l2 = l2)
    (hEA : isEntitiesHeader A = false) (hRA : isRelationshipsHeader A = false)
    (hEB : isEntitiesHeader B = false) (hRB : isRelationshipsHeader B = false)
    (hAB : A ≠ B) :
    (buildGraphFromSummaries
        [mkRelOnlySummary (A ++ '-' :: '>' :: (l1 ++ '-' :: '>' :: B)),
         mkRelOnlySummary (B ++ '-' :: '>' :: (l2 ++ '-' :: '>' :: A))]).edges
      = [(A, B, l2)] := by
  unfold buildGraphFromSummaries
  rw [buildGo, processSummary_relTriple _ A l1 B hA hl1 hB nA nl1 nB hEA hRA]
  dsimp only
  rw [buildGo, processSummary_relTriple _ B l2 A hB hl2 hA nB nl2 nA hEB hRB]
  dsimp only
  rw [buildGo]
  rw [hsA, hsB, hsl1, hsl2]
  rw [addEdge_edges, addEdge_edges]
  show updEdges (updEdges [] A B l1) B A l2 = [(A, B, l2)]
  rw [updEdges, updEdges, if_pos (by simp)]

theorem c2_amended_undirected_last_label_witness :
    (buildGraphFromSummaries
        [mkRelOnlySummary ("Alice".toList ++ '-' :: '>' :: ("knows".toList ++ '-' :: '>' :: "Bob".toList)),
         mkRelOnlySummary ("Bob".toList ++ '-' :: '>' :: ("likes".toList ++ '-' :: '>' :: "Alice".toList))]).edges
      = [("Alice".toList, "Bob".toList, "likes".toList)] :=
  c2_amended_undirected_last_label "Alice".toList "Bob".toList "knows".toList "likes".toList
    (by decide) (by decide) (by decide) (by decide)
    (by decide) (by decide) (by decide) (by decide)
    (by decide) (by decide) (by decide) (by decide)
    (by decide) (by decide) (by decide) (by decide) (by decide)

/-- C8, amended: a non-blank relationships-section line made of
delimiter-free parts joined by `->` yields no edge when it has fewer than
two parts (and raises nothing); with at least two parts it adds the edge
whose source is the first part stripped, whose target is the last part
stripped, and whose label is the middle parts rejoined with `" -> "`
(space, dash, greater-than, space) and then stripped. -/
theorem c8_amended_relationship_line (ps : List (List Char)) (hne : ps ≠ [])
    (hp : ∀ p ∈ ps, hasArrow p = false ∧ '\n' ∉ p)
    (hE : isEntitiesHeader (ps.headD []) = false)
    (hR : isRelationshipsHeader (ps.headD []) = false) :
    buildGraphFromSummaries [mkRelOnlySummary (List.intercalate ['-', '>'] ps)]
      = if 2 ≤ ps.length then
          addEdge emptyPGraph (pyStrip (ps.headD [])) (pyStrip (ps.getLastD []))
            (pyStrip (List.intercalate " -> ".toList (ps.drop 1).dropLast))
        else emptyPGraph := by
  have harrows : ∀ p ∈ ps, hasArrow p = false := fun p h => (hp p h).1
  have hnl : '\n' ∉ List.intercalate ['-', '>'] ps :=
    not_mem_intercalate '\n' ['-', '>'] (by decide) ps (fun p h => (hp p h).2)
  rcases ps with _ | ⟨p, _ | ⟨q, rest⟩⟩
  · exact absurd rfl hne
  · rw [intercalate_singleton_chars] at hnl ⊢
    have hE2 : isEntitiesHeader p = false := by simpa using hE
    have hR2 : isRelationshipsHeader p = false := by simpa using hR
    unfold buildGraphFromSummaries
    rw [buildGo, processSummary_relOnly _ _ hE2 hR2 hnl]
    dsimp only
    rw [buildGo]
    conv_rhs => rw [if_neg (by simp : ¬2 ≤ ([p] : List (List Char)).length)]
    by_cases hb : (pyStrip p).isEmpty = true
    · rw [if_pos hb]
    · rw [if_neg hb]
      simp only [processRelLine]
      rw [splitArrow_no_arrow p (harrows p (by simp))]
      rw [if_neg (by simp)]
  · have hline : List.intercalate ['-', '>'] (p :: q :: rest)
        = p ++ '-' :: '>' :: List.intercalate ['-', '>'] (q :: rest) := by
      rw [intercalate_cons_cons_chars, List.append_assoc, List.cons_append,
        List.singleton_append]
    have hE2 : isEntitiesHeader (List.intercalate ['-', '>'] (p :: q :: rest)) = false := by
      rw [hline, isEntitiesHeader_append_dash]
      simpa using hE
    have hR2 : isRelationshipsHeader (List.intercalate ['-', '>'] (p :: q :: rest)) = false := by
      rw [hline, isRelationshipsHeader_append_dash]
      simpa using hR
    unfold buildGraphFromSummaries
    rw [buildGo, processSummary_relOnly _ _ hE2 hR2 hnl]
    have hblank : (pyStrip (List.intercalate ['-', '>'] (p :: q :: rest))).isEmpty = false := by
      apply pyStrip_ne_nil _ '-' _ (by decide)
      rw [hline]
      simp
    rw [if_neg (by simp [hblank])]
    dsimp only
    rw [buildGo]
    rw [processRelLine_parts _ _ (by simp) harrows]

theorem c8_amended_relationship_line_witness :
    buildGraphFromSummaries
        [mkRelOnlySummary (List.intercalate ['-', '>']
          ["a".toList, "b".toList, "c".toList, "d".toList])]
      = if 2 ≤ (["a".toList, "b".toList, "c".toList, "d".toList] : List (List Char)).length then
          addEdge emptyPGraph
            (pyStrip (["a".toList, "b".toList, "c".toList, "d".toList].headD []))
            (pyStrip (["a".toList, "b".toList, "c".toList, "d".toList].getLastD []))
            (pyStrip (List.intercalate " -> ".toList
              ((["a".toList, "b".toList, "c".toList, "d".toList].drop 1).dropLast)))
        else emptyPGraph :=
  c8_amended_relationship_line ["a".toList, "b".toList, "c".toList, "d".toList]
    (by decide) (by decide) (by decide) (by decide)

/-- C5, amended: with `O >= L` there is no up-front configuration check.
The chunker fails only in the exact case `O = L` with at least one
document, and then with Python's `ValueError` from the zero `range` step;
with `O > L` it does not fail and returns no chunks at all. -/
theorem c5_amended_no_config_check (docs : List (List Char)) (L O : Nat) (hLe : L ≤ O) :
    (splitDocumentsIntoChunks docs L O = Except.error "range() arg 3 must not be zero"
        ↔ (O = L ∧ docs ≠ []))
      ∧ (L < O → splitDocumentsIntoChunks docs L O = Except.ok []) := by
  constructor
  · constructor
    · intro h
      unfold splitDocumentsIntoChunks at h
      by_cases h1 : O = L
      · refine ⟨h1, ?_⟩
        intro hd
        rw [if_pos h1, if_pos (by simp [hd])] at h
        simp at h
      · rw [if_neg h1, if_pos (by omega)] at h
        simp at h
    · rintro ⟨h1, hd⟩
      unfold splitDocumentsIntoChunks
      rw [if_pos h1, if_neg (by simpa using hd)]
  · intro hlt
    unfold splitDocumentsIntoChunks
    rw [if_neg (by omega), if_pos hlt]

theorem c5_amended_no_config_check_witness :
    (splitDocumentsIntoChunks ["ab".toList] 1 1 = Except.error "range() arg 3 must not be zero"
        ↔ (1 = 1 ∧ (["ab".toList] : List (List Char)) ≠ []))
      ∧ (1 < 1 → splitDocumentsIntoChunks ["ab".toList] 1 1 = Except.ok []) :=
  c5_amended_no_config_check ["ab".toList] 1 1 (by decide)
